import Mathlib

/-!
Verification development for the object-decoding pipeline of `gitutils.go`
(DaGit repository): the header parser (`getType`/`getSize`), the tree decoder
(`parseTree`), the commit decoder (`parseCommit`), and the graph-building step
(`Repo.toJson`).

Modelling conventions:
* Go byte slices and Go strings are both modelled as `List Nat` (one `Nat` per
  byte); `Bytes` below.
* A Go slice-out-of-range panic, and a `log.Fatal` abort, are both modelled by
  an `Option` result being `none`: the operation produces no value and the
  whole process stops.
* `strings.TrimSpace` trims Unicode whitespace from both ends; on the ASCII
  inputs considered here that is exactly the byte set
  {9, 10, 11, 12, 13, 32}, which is what `trimSpace` below trims.
* The Go `for`/`while` loops are embedded with an explicit fuel parameter so
  that every definition is a structural recursion the kernel can evaluate.
  The fuel passed by the wrappers (`content.length + 1`) strictly exceeds the
  number of iterations any input can cause (each `parseTree` entry advances
  the cursor by at least 27 bytes, each scan step advances by one byte and is
  bounded by the buffer length), so fuel exhaustion is unreachable.
-/

/-- A Go byte slice / Go string: one natural number per byte. -/
abbrev Bytes := List Nat

/-- Byte constant `SPACE` from the source. -/
def SPACE : Nat := 32

/-- Byte constant `NUL` from the source. -/
def NUL : Nat := 0

/-- ASCII bytes trimmed by Go's `strings.TrimSpace` (ASCII range). -/
def isGoSpace (b : Nat) : Bool :=
  b = 32 || b = 9 || b = 10 || b = 11 || b = 12 || b = 13

/-- Model of Go `strings.TrimSpace` on ASCII data: drop leading and trailing
whitespace bytes. -/
def trimSpace (s : Bytes) : Bytes :=
  ((s.dropWhile isGoSpace).reverse.dropWhile isGoSpace).reverse

/-- Bytes of an ASCII string literal (convenience for concrete inputs). -/
def goStr (s : String) : Bytes :=
  s.data.map Char.toNat

/-- Low hex digit characters as produced by Go `hex.EncodeToString`. -/
def hexDigit (n : Nat) : Nat :=
  if n < 10 then 48 + n else 87 + n

/-- Model of Go `hex.EncodeToString`: two lowercase hex characters per byte. -/
def hexEncode (bs : Bytes) : Bytes :=
  bs.flatMap fun b => [hexDigit (b / 16), hexDigit (b % 16)]

/-- Value of one lowercase hex digit character (inverse of `hexDigit`). -/
def hexDigitVal (c : Nat) : Nat :=
  if c < 58 then c - 48 else c - 87

/-- Decode a lowercase hex string back to raw bytes (used to state the
round-trip property; pairs of digits, any trailing odd digit dropped). -/
def hexDecode : Bytes → Bytes
  | c1 :: c2 :: rest => (hexDigitVal c1 * 16 + hexDigitVal c2) :: hexDecode rest
  | _ => []

/-- `findFirstMatch` from the source (lines 23-30): index of the first byte
equal to `matchByte` at position `startIndex` or later, `-1` if absent. -/
def findFirstMatch (matchByte : Nat) (startIndex : Nat) (data : Bytes) : Int :=
  match (data.drop startIndex).findIdx? (· = matchByte) with
  | some i => ((startIndex + i : Nat) : Int)
  | none => -1

/-- `getType` from the source (lines 73-77): bytes before the first space,
trimmed, plus the index of that space.  When no space exists the source
slices `data[0:-1]`, a panic: modelled as `none`. -/
def getType (data : Bytes) : Option (Bytes × Nat) :=
  let fsi := findFirstMatch SPACE 0 data
  if fsi < 0 then none
  else some (trimSpace (data.take fsi.toNat), fsi.toNat)

/-- `getSize` from the source (lines 80-84): bytes from the first space up to
the first NUL after it, trimmed, plus the index one past that NUL (the start
of the object's content).  When no NUL exists the source slices
`data[fsi:-1]`, a panic: modelled as `none`. -/
def getSize (firstSpaceIndex : Nat) (data : Bytes) : Option (Bytes × Nat) :=
  let fni := findFirstMatch NUL (firstSpaceIndex + 1) data
  if fni < 0 then none
  else some (trimSpace ((data.drop firstSpaceIndex).take (fni.toNat - firstSpaceIndex)),
             fni.toNat + 1)

/-- The pure header-parsing tail of `newObject` (source lines 100-104): run
`getType` then `getSize` over the decompressed bytes and slice the content
from the returned offset.  Result `(type, size, content)`; `none` models the
panic paths of `getType`/`getSize`. -/
def loadHeader (data : Bytes) : Option (Bytes × Bytes × Bytes) :=
  match getType data with
  | none => none
  | some (t, fsi) =>
    match getSize fsi data with
    | none => none
    | some (s, cs) => some (t, s, data.drop cs)

/-- One decoded tree entry (`TreeEntry` struct, source lines 53-57); `hash`
holds the 40-character hex identifier as produced by the decoder. -/
structure TreeEntry where
  mode : Bytes
  name : Bytes
  hash : Bytes
deriving DecidableEq, Repr

/-- The name-scanning inner loop of `parseTree` case 2 (source line 306):
`for obj.Content[i] != NUL && i < content_len-1 { i += 1 }`.  The first array
access `obj.Content[i]` happens before the bound check, so a start index at or
past the end panics: modelled as `none`.  Fuel makes the recursion structural;
the wrapper passes more fuel than the scan can ever consume. -/
def nameScanAux (content : Bytes) : Nat → Nat → Option Nat
  | 0, _ => none
  | fuel + 1, i =>
    match content[i]? with
    | none => none
    | some b =>
      if b ≠ NUL ∧ i < content.length - 1 then nameScanAux content fuel (i + 1)
      else some i

/-- The `parseTree` loop (source lines 296-321), restructured one entry per
recursive call: the source cycles `entry_item` through 1 (fixed 6-byte mode
window, trimmed), 2 (scan to NUL for the name, trimmed), 3 (20 raw hash
bytes, hex-encoded), re-checking `stop <= content_len` before each case.  The
check before case 2 always succeeds (case 1 leaves `stop` unchanged), so only
the checks before case 1 and case 3 appear here.  `none` models the panic of
the unchecked first access in the name scan. -/
def parseTreeLoop (content : Bytes) : Nat → Nat → List TreeEntry → Option (List TreeEntry)
  | 0, _, _ => none
  | fuel + 1, start, acc =>
    if start + 6 > content.length then some acc
    else
      let mode := trimSpace ((content.drop start).take 6)
      match nameScanAux content (content.length + 1) (start + 6) with
      | none => none
      | some i0 =>
        let name := trimSpace ((content.drop (start + 6)).take (i0 - (start + 6)))
        let start3 := i0 + 1
        if start3 + 20 > content.length then some acc
        else
          let hash := trimSpace (hexEncode ((content.drop start3).take 20))
          parseTreeLoop content fuel (start3 + 20) (acc ++ [⟨mode, name, hash⟩])

/-- `parseTree` from the source (lines 291-323), as a function of the object's
content bytes.  `some entries` is the returned slice; `none` is a panic. -/
def parseTree (content : Bytes) : Option (List TreeEntry) :=
  parseTreeLoop content (content.length + 1) 0 []

/-- One decoded commit (`Commit` struct, source lines 59-62). -/
structure Commit where
  tree : Bytes
  parents : List Bytes
deriving DecidableEq, Repr

/-- Go `strings.Split(s, sep)` for a one-byte separator: split around every
occurrence, keeping empty fields; the result always has one more element than
the number of separators. -/
def goSplit (c : Nat) : Bytes → List Bytes
  | [] => [[]]
  | x :: xs =>
    if x = c then [] :: goSplit c xs
    else
      match goSplit c xs with
      | [] => [[x]]
      | l :: ls => (x :: l) :: ls

/-- Byte constant for the string literal `parent` compared against in
`parseCommit`. -/
def parentTok : Bytes := goStr "parent"

/-- The parent-collecting loop of `parseCommit` (source lines 329-335):
accept while `line[:6] == "parent"`, collecting `line[7:47]`, `break` on the
first other line.  Both slices are taken unconditionally in the source, so a
line shorter than 6 (or a `parent`-prefixed line shorter than 47) panics:
modelled as `none`. -/
def parseParents : List Bytes → Option (List Bytes)
  | [] => some []
  | line :: rest =>
    if line.length < 6 then none
    else if line.take 6 = parentTok then
      if line.length < 47 then none
      else
        match parseParents rest with
        | none => none
        | some ps => some (((line.drop 7).take 40) :: ps)
    else some []

/-- `parseCommit` from the source (lines 325-337): `tree_hash` is the fixed
slice `Content[5:45]`, the remainder is `Content[46:]` split on newlines, and
parents are collected by `parseParents`.  The source panics when the content
is shorter than 46 bytes (slice bounds) or when a scanned line is too short:
both are `none` here. -/
def parseCommit (content : Bytes) : Option Commit :=
  if content.length < 46 then none
  else
    let treeHash := (content.drop 5).take 40
    let lines := goSplit 10 (content.drop 46)
    match parseParents lines with
    | none => none
    | some ps => some ⟨treeHash, ps⟩

/-- `Object` struct from the source (lines 45-51). -/
structure Object where
  type_ : Bytes
  size : Bytes
  location : Bytes
  name : Bytes
  content : Bytes
deriving DecidableEq, Repr

/-- `Edge` struct from the source (lines 40-43). -/
structure Edge where
  src : Bytes
  dest : Bytes
deriving DecidableEq, Repr

/-- The JSON document produced by `Object.toJson` (source lines 107-130),
kept structured rather than serialized: marshalling a well-formed Go value
never fails, so the only interesting cases are which value is marshalled and
the empty byte slice returned for unrecognized types. -/
inductive JsonVal where
  | treeJson : List TreeEntry → JsonVal
  | commitJson : Commit → JsonVal
  | blobJson : Object → JsonVal
  | emptyBytes : JsonVal
deriving DecidableEq, Repr

/-- `Object.toJson` (source lines 107-130): tree and commit objects marshal
their parsed body, blobs marshal the object itself, anything else returns the
empty byte slice.  `none` propagates a parse panic. -/
def objectToJson (obj : Object) : Option JsonVal :=
  if obj.type_ = goStr "tree" then
    match parseTree obj.content with
    | none => none
    | some es => some (.treeJson es)
  else if obj.type_ = goStr "commit" then
    match parseCommit obj.content with
    | none => none
    | some c => some (.commitJson c)
  else if obj.type_ = goStr "blob" then some (.blobJson obj)
  else some .emptyBytes

/-- The `json.Unmarshal(obj.toJson(), &objMap)` step of `Repo.toJson` (source
lines 170-174): unmarshalling any of the marshalled documents succeeds, but
the empty byte slice returned for unrecognized types is not valid JSON, so it
fails and the source calls `log.Fatal`: modelled as `none`. -/
def unmarshalObjMap : JsonVal → Option JsonVal
  | .emptyBytes => none
  | v => some v

/-- One graph node as assembled by `Repo.toJson` (source line 175). -/
structure Node where
  name : Bytes
  type_ : Bytes
  object : JsonVal
deriving DecidableEq, Repr

/-- `Repo.toJson` (source lines 166-198) over the repository's objects.  Go
iterates the object map in unspecified order; the list argument fixes one
iteration order.  For each object a node is built (via `Object.toJson` and
`json.Unmarshal`, whose failure aborts via `log.Fatal`), then commit objects
contribute parent edges (declaration order) followed by the tree edge, and
tree objects contribute one edge per entry in on-disk order.  `none` models
any abort (panic or `log.Fatal`): no result is produced at all. -/
def repoToJson : List Object → Option (List Node × List Edge)
  | [] => some ([], [])
  | obj :: rest =>
    match objectToJson obj with
    | none => none
    | some j =>
      match unmarshalObjMap j with
      | none => none
      | some objMap =>
        let node : Node := ⟨obj.name, obj.type_, objMap⟩
        let edgesHere : Option (List Edge) :=
          if obj.type_ = goStr "commit" then
            match parseCommit obj.content with
            | none => none
            | some c => some ((c.parents.map fun p => ⟨obj.name, p⟩) ++ [⟨obj.name, c.tree⟩])
          else if obj.type_ = goStr "tree" then
            match parseTree obj.content with
            | none => none
            | some es => some (es.map fun e => ⟨obj.name, e.hash⟩)
          else some []
        match edgesHere with
        | none => none
        | some es =>
          match repoToJson rest with
          | none => none
          | some (ns, tailEdges) => some (node :: ns, es ++ tailEdges)

/-- Encoding of one on-disk tree entry from raw fields: mode, one space, the
name, one NUL, then the 20 raw hash bytes (spec §4.2 grammar). -/
def encodeTreeEntry (mode name rawHash : Bytes) : Bytes :=
  mode ++ [32] ++ name ++ [0] ++ rawHash

/-- Encoding of a whole tree body: concatenated entries. -/
def encodeTree (l : List (Bytes × Bytes × Bytes)) : Bytes :=
  (l.map fun e => encodeTreeEntry e.1 e.2.1 e.2.2).flatten

/-- Encoding of a commit body: the `tree <id>` line, `parent <id>` lines in
declaration order, then the remaining bytes (author line onward). -/
def encodeCommit (tree : Bytes) (parents : List Bytes) (tailBytes : Bytes) : Bytes :=
  goStr "tree " ++ tree ++ [10]
    ++ (parents.map fun p => parentTok ++ [32] ++ p ++ [10]).flatten
    ++ tailBytes

/-- Split a byte list at the first occurrence of `b`: the bytes before it and
the bytes after it, or `none` when `b` is absent. -/
def splitAtFirst (b : Nat) : Bytes → Option (Bytes × Bytes)
  | [] => none
  | x :: xs =>
    if x = b then some ([], xs)
    else
      match splitAtFirst b xs with
      | none => none
      | some (p, s) => some (x :: p, s)

/-- Modelled from the spec: the scan-to-delimiter tree decoding algorithm of
§4.2, which the spec asserts the decoder follows (MODE: scan to the next
space; NAME: scan to the next zero byte; HASH: exactly 20 raw bytes,
hex-encoded), with `none` for the `MalformedTree`/`TruncatedTree` failures.
This definition exists only to compare the source's `parseTree` against the
claimed algorithm; it is not part of the source. -/
def parseTreeSpecFuel : Nat → Bytes → Option (List TreeEntry)
  | 0, _ => none
  | fuel + 1, body =>
    if body = [] then some []
    else
      match splitAtFirst 32 body with
      | none => none
      | some (mode, rest1) =>
        match splitAtFirst 0 rest1 with
        | none => none
        | some (name, rest2) =>
          if rest2.length < 20 then none
          else
            match parseTreeSpecFuel fuel (rest2.drop 20) with
            | none => none
            | some es => some (⟨mode, name, hexEncode (rest2.take 20)⟩ :: es)

/-- Modelled from the spec: wrapper for `parseTreeSpecFuel`; each decoded
entry consumes at least 22 bytes, so `body.length + 1` fuel never runs out. -/
def parseTreeSpec (body : Bytes) : Option (List TreeEntry) :=
  parseTreeSpecFuel (body.length + 1) body

/-- Re-encoding of one decoded entry as the round-trip property of the spec
(§8) prescribes: mode, one space, name, one NUL, then the 20 raw bytes
obtained by hex-decoding the 40-character identifier. -/
def reencodeEntry (e : TreeEntry) : Bytes :=
  e.mode ++ [32] ++ e.name ++ [0] ++ hexDecode e.hash

/-- Re-encoding of a decoded entry list into a tree body. -/
def reencodeTree (es : List TreeEntry) : Bytes :=
  (es.map reencodeEntry).flatten

/-- A tree body with a 4-byte mode, used to compare the source decoder with
the spec's scan-to-delimiter algorithm. -/
def c1Hash : Bytes := List.replicate 20 171

/-- Tree body `0644 a\x00` followed by 20 raw hash bytes. -/
def c1Body : Bytes := encodeTreeEntry (goStr "0644") (goStr "a") c1Hash

/-- Hash bytes for the round-trip counterexample. -/
def c7Hash : Bytes := List.replicate 20 5

/-- Tree body whose single entry's name has a leading space. -/
def c7Body : Bytes := encodeTreeEntry (goStr "40000") ([32] ++ goStr "a") c7Hash

/-- A well-formed blob object. -/
def blobObj : Object :=
  ⟨goStr "blob", goStr "3", goStr "objects/aa/b1", goStr "aab1", goStr "abc"⟩

/-- A commit object whose body ends right after the tree line: the line
scanned next is empty, so the source's `line[:6]` slice is out of range. -/
def badCommitObj : Object :=
  ⟨goStr "commit", goStr "46", goStr "objects/bb/c2", goStr "bbc2",
   goStr "tree " ++ List.replicate 40 97 ++ [10]⟩

/-- An object of a kind the builder does not recognize (real stores contain
`tag` objects). -/
def tagObj : Object :=
  ⟨goStr "tag", goStr "5", goStr "objects/cc/d3", goStr "ccd3", goStr "hello"⟩

/-- Raw well-formedness of one on-disk tree entry `(mode, name, rawHash)` as
needed for the source decoder to walk it: a 5- or 6-byte mode (the lengths of
the real git modes), a NUL-free name, and a 20-byte raw hash. -/
abbrev RawEntryOk (e : Bytes × Bytes × Bytes) : Prop :=
  (e.1.length = 5 ∨ e.1.length = 6) ∧ (0 : Nat) ∉ e.2.1 ∧ e.2.2.length = 20

lemma drop_add (l : Bytes) (i k : Nat) : l.drop (i + k) = (l.drop i).drop k := by
  induction i generalizing l with
  | zero => simp
  | succ i ih =>
    cases l with
    | nil => simp
    | cons x xs =>
      have : i + 1 + k = (i + k) + 1 := by omega
      rw [this]
      simp only [List.drop_succ_cons]
      exact ih xs

lemma take_len_append (A B : Bytes) : (A ++ B).take A.length = A := by
  induction A with
  | nil => simp
  | cons x xs ih => simp [ih]

lemma drop_len_append (A B : Bytes) : (A ++ B).drop A.length = B := by
  induction A with
  | nil => simp
  | cons x xs ih => simp [ih]

lemma getElem?_of_drop (l : Bytes) (i : Nat) (x : Nat) (rest : Bytes)
    (h : l.drop i = x :: rest) : l[i]? = some x := by
  induction i generalizing l with
  | zero => simp at h; simp [h]
  | succ i ih =>
    cases l with
    | nil => simp at h
    | cons c cs =>
      simp only [List.drop_succ_cons] at h
      simpa using ih cs h

lemma dropWhile_of_no_space (s : Bytes) (h : ∀ b ∈ s, isGoSpace b = false) :
    s.dropWhile isGoSpace = s := by
  cases s with
  | nil => rfl
  | cons x xs => simp [List.dropWhile_cons, h x (by simp)]

lemma trim_no_space (s : Bytes) (h : ∀ b ∈ s, isGoSpace b = false) :
    trimSpace s = s := by
  unfold trimSpace
  rw [dropWhile_of_no_space s h,
      dropWhile_of_no_space s.reverse (by intro b hb; exact h b (List.mem_reverse.mp hb)),
      List.reverse_reverse]

lemma trim_cons_space (s : Bytes) : trimSpace (32 :: s) = trimSpace s := by
  simp [trimSpace, List.dropWhile_cons, isGoSpace]

lemma trimR_cons_space (s : Bytes) :
    (32 :: s).dropWhile isGoSpace = s.dropWhile isGoSpace := by
  simp [List.dropWhile_cons, isGoSpace]

lemma trim_append_space (s : Bytes) : trimSpace (s ++ [32]) = trimSpace s := by
  unfold trimSpace
  rcases h : s.dropWhile isGoSpace with _ | ⟨x, xs⟩
  · rw [List.dropWhile_append, h]
    simp [isGoSpace]
  · rw [List.dropWhile_append, h]
    simp only [List.isEmpty_cons, ite_false, Bool.false_eq_true, if_false]
    rw [List.reverse_append]
    simp only [List.reverse_cons, List.reverse_nil, List.nil_append, List.singleton_append]
    rw [trimR_cons_space]

lemma hexDigit_not_space (n : Nat) : isGoSpace (hexDigit n) = false := by
  unfold hexDigit isGoSpace
  split <;> simp <;> omega

lemma hex_no_space (bs : Bytes) : ∀ b ∈ hexEncode bs, isGoSpace b = false := by
  intro b hb
  unfold hexEncode at hb
  rw [List.mem_flatMap] at hb
  obtain ⟨a, -, hmem⟩ := hb
  simp only [List.mem_cons, List.mem_singleton, List.not_mem_nil, or_false] at hmem
  rcases hmem with h | h <;> rw [h] <;> exact hexDigit_not_space _

lemma hexDigitVal_hexDigit (n : Nat) (h : n < 16) : hexDigitVal (hexDigit n) = n := by
  unfold hexDigit hexDigitVal
  split <;> split <;> omega

lemma hexDecode_hexEncode (bs : Bytes) (h : ∀ b ∈ bs, b < 256) :
    hexDecode (hexEncode bs) = bs := by
  induction bs with
  | nil => rfl
  | cons b t ih =>
    have hb : b < 256 := h b (by simp)
    have h1 : b / 16 < 16 := by omega
    have h2 : b % 16 < 16 := by omega
    show hexDecode (hexDigit (b / 16) :: hexDigit (b % 16) :: hexEncode t) = b :: t
    rw [hexDecode, hexDigitVal_hexDigit _ h1, hexDigitVal_hexDigit _ h2,
        ih (fun x hx => h x (by simp [hx]))]
    congr 1
    omega

lemma nameScanAux_spec (content : Bytes) (pre : Bytes) :
    ∀ (fuel i : Nat) (suf : Bytes),
    content.drop i = pre ++ 0 :: suf → (∀ b ∈ pre, b ≠ 0) → pre.length < fuel →
    nameScanAux content fuel i = some (i + pre.length) := by
  induction pre with
  | nil =>
    intro fuel i suf hdrop _ hfuel
    cases fuel with
    | zero => omega
    | succ f =>
      simp only [List.nil_append] at hdrop
      rw [nameScanAux, getElem?_of_drop content i 0 suf hdrop]
      simp [NUL]
  | cons b pre ih =>
    intro fuel i suf hdrop hpre hfuel
    cases fuel with
    | zero => omega
    | succ f =>
      have hdropc : content.drop i = b :: (pre ++ 0 :: suf) := by simpa using hdrop
      have hb : b ≠ 0 := hpre b (by simp)
      have hlt : i < content.length - 1 := by
        have hlen := congrArg List.length hdropc
        rw [List.length_drop] at hlen
        simp at hlen
        omega
      rw [nameScanAux, getElem?_of_drop content i b _ hdropc]
      simp only [NUL, ne_eq, hb, not_false_eq_true, hlt, and_self, if_true]
      have hnext : content.drop (i + 1) = pre ++ 0 :: suf := by
        rw [drop_add, hdropc]
        simp
      have hfuel' : pre.length < f := by
        simp only [List.length_cons] at hfuel
        omega
      have := ih f (i + 1) suf hnext (fun x hx => hpre x (by simp [hx])) hfuel'
      rw [this]
      congr 1
      simp
      omega

lemma encodeTree_cons (m n h : Bytes) (l : List (Bytes × Bytes × Bytes)) :
    encodeTree ((m, n, h) :: l) = m ++ 32 :: (n ++ 0 :: (h ++ encodeTree l)) := by
  simp [encodeTree, encodeTreeEntry]

lemma parseTreeLoop_encode (l : List (Bytes × Bytes × Bytes)) :
    ∀ (content : Bytes) (fuel start : Nat) (acc : List TreeEntry),
    content.drop start = encodeTree l →
    (∀ e ∈ l, RawEntryOk e) →
    l.length < fuel →
    parseTreeLoop content fuel start acc
      = some (acc ++ l.map fun e => ⟨trimSpace e.1, trimSpace e.2.1, hexEncode e.2.2⟩) := by
  induction l with
  | nil =>
    intro content fuel start acc hdrop _ hfuel
    cases fuel with
    | zero => omega
    | succ f =>
      have hempty : content.drop start = [] := by simpa [encodeTree] using hdrop
      have hsz : content.length - start = 0 := by
        have := congrArg List.length hempty
        simpa [List.length_drop] using this
      rw [parseTreeLoop, if_pos (by omega)]
      simp
  | cons e l ih =>
    rintro content fuel start acc hdrop hok hfuel
    obtain ⟨m, n, h⟩ := e
    cases fuel with
    | zero => omega
    | succ f =>
      rw [encodeTree_cons] at hdrop
      obtain ⟨hmode, hname, hhash⟩ := hok (m, n, h) (by simp)
      simp only at hmode hname hhash
      have hL : content.length - start
          = m.length + 1 + n.length + 1 + h.length + (encodeTree l).length := by
        have := congrArg List.length hdrop
        simp only [List.length_drop, List.length_append, List.length_cons] at this
        omega
      have hmlen : m.length ≤ 6 := by omega
      have key : ∃ pre : Bytes,
          content.drop (start + 6) = pre ++ 0 :: (h ++ encodeTree l) ∧
          (∀ b ∈ pre, b ≠ 0) ∧
          trimSpace pre = trimSpace n ∧
          6 + pre.length = m.length + 1 + n.length ∧
          trimSpace ((content.drop start).take 6) = trimSpace m := by
        rcases hmode with h5 | h6
        · refine ⟨n, ?_, ?_, rfl, by omega, ?_⟩
          · have hgrp : content.drop start
                = (m ++ [32]) ++ (n ++ 0 :: (h ++ encodeTree l)) := by
              rw [hdrop]; simp
            have h6len : (m ++ [32]).length = 6 := by simp [h5]
            rw [drop_add, hgrp, ← h6len, drop_len_append]
          · intro b hb
            exact fun hb0 => hname (hb0 ▸ hb)
          · have hgrp : content.drop start
                = (m ++ [32]) ++ (n ++ 0 :: (h ++ encodeTree l)) := by
              rw [hdrop]; simp
            have h6len : (m ++ [32]).length = 6 := by simp [h5]
            rw [hgrp, ← h6len, take_len_append, trim_append_space]
        · refine ⟨32 :: n, ?_, ?_, trim_cons_space n, by simp; omega, ?_⟩
          · have hgrp : content.drop start
                = m ++ (32 :: (n ++ 0 :: (h ++ encodeTree l))) := hdrop
            rw [drop_add, hgrp, ← h6, drop_len_append]
            simp
          · intro b hb
            rcases List.mem_cons.mp hb with hb32 | hbn
            · omega
            · exact fun hb0 => hname (hb0 ▸ hbn)
          · rw [hdrop, show m ++ 32 :: (n ++ 0 :: (h ++ encodeTree l))
                = m ++ (32 :: (n ++ 0 :: (h ++ encodeTree l))) from rfl, ← h6, take_len_append]
      obtain ⟨pre, hpreDrop, hpreNe, hpreTrim, hpreLen, hmodeTrim⟩ := key
      have hscan : nameScanAux content (content.length + 1) (start + 6)
          = some (start + 6 + pre.length) := by
        apply nameScanAux_spec content pre _ _ (h ++ encodeTree l) hpreDrop hpreNe
        omega
      have hnameSlice : (content.drop (start + 6)).take (start + 6 + pre.length - (start + 6))
          = pre := by
        have : start + 6 + pre.length - (start + 6) = pre.length := by omega
        rw [this, hpreDrop, ← show pre.length = pre.length from rfl]
        exact take_len_append pre _
      have hdrop3 : content.drop (start + 6 + pre.length + 1) = h ++ encodeTree l := by
        have hsplit : start + 6 + pre.length + 1 = (start + 6) + (pre.length + 1) := by omega
        rw [hsplit, drop_add, hpreDrop,
            show pre ++ 0 :: (h ++ encodeTree l) = (pre ++ [0]) ++ (h ++ encodeTree l) by simp,
            ← show (pre ++ [0]).length = pre.length + 1 by simp, drop_len_append]
      have hhashSlice : (content.drop (start + 6 + pre.length + 1)).take 20 = h := by
        rw [hdrop3, ← hhash, take_len_append]
      have hdropNext : content.drop (start + 6 + pre.length + 1 + 20) = encodeTree l := by
        rw [show start + 6 + pre.length + 1 + 20 = (start + 6 + pre.length + 1) + 20 by omega,
            drop_add, hdrop3, ← hhash, drop_len_append]
      rw [parseTreeLoop, if_neg (by omega)]
      simp only [hscan]
      rw [if_neg (by omega)]
      rw [hnameSlice, hmodeTrim, hhashSlice,
          trim_no_space (hexEncode h) (hex_no_space h), hpreTrim]
      have hrec := ih content f (start + 6 + pre.length + 1 + 20)
          (acc ++ [⟨trimSpace m, trimSpace n, hexEncode h⟩]) hdropNext
          (fun e he => hok e (by simp [he])) (by simp at hfuel; omega)
      rw [hrec]
      simp

/-- `parseTree` on a well-formed encoded tree body returns one entry per
encoded entry, in order, with mode and name whitespace-trimmed and the hash
hex-encoded. -/
lemma parseTree_encode (l : List (Bytes × Bytes × Bytes)) (hok : ∀ e ∈ l, RawEntryOk e) :
    parseTree (encodeTree l)
      = some (l.map fun e => ⟨trimSpace e.1, trimSpace e.2.1, hexEncode e.2.2⟩) := by
  have hlen : l.length < (encodeTree l).length + 1 := by
    induction l with
    | nil => simp
    | cons e t iht =>
      obtain ⟨m, n, h⟩ := e
      rw [encodeTree_cons]
      simp only [List.length_cons, List.length_append]
      have := iht (fun x hx => hok x (by simp [hx]))
      simp at this ⊢
      omega
  exact parseTreeLoop_encode l (encodeTree l) ((encodeTree l).length + 1) 0 [] (by simp) hok hlen

lemma splitAtFirst_append (b : Nat) (p s : Bytes) (hp : b ∉ p) :
    splitAtFirst b (p ++ b :: s) = some (p, s) := by
  induction p with
  | nil => simp [splitAtFirst]
  | cons x xs ih =>
    have hx : x ≠ b := by intro hx; exact hp (by simp [hx])
    simp only [List.cons_append, splitAtFirst, hx, if_false, List.append_eq]
    rw [ih (fun hm => hp (by simp [hm]))]

lemma parseTreeSpecFuel_encode (l : List (Bytes × Bytes × Bytes)) :
    ∀ fuel : Nat,
    (∀ e ∈ l, (32 : Nat) ∉ e.1 ∧ (0 : Nat) ∉ e.2.1 ∧ e.2.2.length = 20) →
    l.length < fuel →
    parseTreeSpecFuel fuel (encodeTree l)
      = some (l.map fun e => ⟨e.1, e.2.1, hexEncode e.2.2⟩) := by
  induction l with
  | nil =>
    intro fuel _ hfuel
    cases fuel with
    | zero => omega
    | succ f => simp [parseTreeSpecFuel, encodeTree]
  | cons e l ih =>
    intro fuel hok hfuel
    obtain ⟨m, n, h⟩ := e
    cases fuel with
    | zero => omega
    | succ f =>
      obtain ⟨hm, hn, hh⟩ := hok (m, n, h) (by simp)
      simp only at hm hn hh
      have hne : encodeTree ((m, n, h) :: l) ≠ [] := by
        rw [encodeTree_cons]
        intro hcontra
        have := congrArg List.length hcontra
        simp at this
      have h1 : splitAtFirst 32 (m ++ 32 :: (n ++ 0 :: (h ++ encodeTree l)))
          = some (m, n ++ 0 :: (h ++ encodeTree l)) := splitAtFirst_append 32 m _ hm
      have h2 : splitAtFirst 0 (n ++ 0 :: (h ++ encodeTree l))
          = some (n, h ++ encodeTree l) := splitAtFirst_append 0 n _ hn
      have hlen : (h ++ encodeTree l).length ≥ 20 := by simp [hh]
      have htake : (h ++ encodeTree l).take 20 = h := by rw [← hh, take_len_append]
      have hdrop : (h ++ encodeTree l).drop 20 = encodeTree l := by rw [← hh, drop_len_append]
      have hrec := ih f (fun x hx => hok x (by simp [hx])) (by simp at hfuel; omega)
      rw [parseTreeSpecFuel, if_neg hne, encodeTree_cons]
      simp only [h1, h2]
      rw [if_neg (by omega)]
      rw [htake, hdrop, hrec]
      simp

lemma encodeTree_length_ge (l : List (Bytes × Bytes × Bytes)) :
    l.length ≤ (encodeTree l).length := by
  induction l with
  | nil => simp [encodeTree]
  | cons e t ih =>
    obtain ⟨m, n, h⟩ := e
    rw [encodeTree_cons]
    simp only [List.length_cons, List.length_append, List.length_cons]
    omega

/-- The spec's delimiter-scanning decoder on a well-formed encoded tree body
returns the raw fields unchanged (no trimming), hash hex-encoded. -/
lemma parseTreeSpec_encode (l : List (Bytes × Bytes × Bytes))
    (hok : ∀ e ∈ l, (32 : Nat) ∉ e.1 ∧ (0 : Nat) ∉ e.2.1 ∧ e.2.2.length = 20) :
    parseTreeSpec (encodeTree l) = some (l.map fun e => ⟨e.1, e.2.1, hexEncode e.2.2⟩) := by
  unfold parseTreeSpec
  exact parseTreeSpecFuel_encode l ((encodeTree l).length + 1) hok
    (by have := encodeTree_length_ge l; omega)

lemma goSplit_ne_nil (c : Nat) (s : Bytes) : goSplit c s ≠ [] := by
  cases s with
  | nil => simp [goSplit]
  | cons x xs =>
    rw [goSplit]
    split
    · simp
    · match h : goSplit c xs with
      | [] => simp
      | l :: ls => simp

lemma goSplit_append_cons (c : Nat) (xs ys : Bytes) (h : c ∉ xs) :
    goSplit c (xs ++ c :: ys) = xs :: goSplit c ys := by
  induction xs with
  | nil => simp [goSplit]
  | cons x t ih =>
    have hx : x ≠ c := fun hx => h (by simp [hx])
    rw [List.cons_append, goSplit, if_neg hx, ih (fun hm => h (by simp [hm]))]

lemma parentTok_len : parentTok.length = 6 := by decide

lemma parseParents_stop (line : Bytes) (others : List Bytes)
    (hlen : 6 ≤ line.length) (hne : line.take 6 ≠ parentTok) :
    parseParents (line :: others) = some [] := by
  rw [parseParents, if_neg (by omega), if_neg hne]

lemma parseParents_encode (Ps : List Bytes) (hP : ∀ p ∈ Ps, p.length = 40)
    (line : Bytes) (others : List Bytes)
    (hlen : 6 ≤ line.length) (hne : line.take 6 ≠ parentTok) :
    parseParents ((Ps.map fun p => parentTok ++ [32] ++ p) ++ line :: others)
      = some Ps := by
  induction Ps with
  | nil => simpa using parseParents_stop line others hlen hne
  | cons p t ih =>
    have hp : p.length = 40 := hP p (by simp)
    have hllen : (parentTok ++ [32] ++ p).length = 47 := by
      simp [parentTok_len, hp]
    have htake : (parentTok ++ [32] ++ p).take 6 = parentTok := by
      rw [List.append_assoc, ← parentTok_len, take_len_append]
    have hdrop : ((parentTok ++ [32] ++ p).drop 7).take 40 = p := by
      have h7 : (parentTok ++ [32]).length = 7 := by simp [parentTok_len]
      rw [← h7, drop_len_append, ← hp, List.take_length]
    rw [List.map_cons, List.cons_append, parseParents,
        if_neg (by omega), if_pos htake, if_neg (by omega),
        ih (fun x hx => hP x (by simp [hx])), hdrop]

lemma goSplit_parent_lines (Ps : List Bytes)
    (hP : ∀ p ∈ Ps, p.length = 40 ∧ (10 : Nat) ∉ p) (tailBytes : Bytes) :
    goSplit 10 ((Ps.map fun p => parentTok ++ [32] ++ p ++ [10]).flatten ++ tailBytes)
      = (Ps.map fun p => parentTok ++ [32] ++ p) ++ goSplit 10 tailBytes := by
  induction Ps with
  | nil => simp
  | cons p t ih =>
    obtain ⟨hp40, hp10⟩ := hP p (by simp)
    have hregroup :
        ((parentTok ++ [32] ++ p ++ [10]) :: (t.map fun q => parentTok ++ [32] ++ q ++ [10])).flatten
            ++ tailBytes
          = (parentTok ++ [32] ++ p)
            ++ 10 :: ((t.map fun q => parentTok ++ [32] ++ q ++ [10]).flatten ++ tailBytes) := by
      simp
    have hno10 : (10 : Nat) ∉ parentTok ++ [32] ++ p := by
      intro hmem
      simp only [List.mem_append] at hmem
      rcases hmem with (htok | h32) | hp
      · revert htok; decide
      · simp at h32
      · exact hp10 hp
    rw [List.map_cons, hregroup, goSplit_append_cons 10 _ _ hno10,
        ih (fun x hx => hP x (by simp [hx]))]
    simp

/-- `parseCommit` on a well-formed encoded commit body returns the tree
identifier of the first line and exactly the encoded parents, in order,
provided the first line after the parent run is at least 6 bytes and does not
begin with the 6 bytes `parent`. -/
lemma parseCommit_encode (T : Bytes) (Ps : List Bytes) (tailBytes : Bytes)
    (hT : T.length = 40)
    (hP : ∀ p ∈ Ps, p.length = 40 ∧ (10 : Nat) ∉ p)
    (hstop1 : 6 ≤ (goSplit 10 tailBytes).headI.length)
    (hstop2 : (goSplit 10 tailBytes).headI.take 6 ≠ parentTok) :
    parseCommit (encodeCommit T Ps tailBytes) = some ⟨T, Ps⟩ := by
  have htree5 : (goStr "tree ").length = 5 := by decide
  have hlenP : ∀ p ∈ Ps, (parentTok ++ [32] ++ p ++ [10]).length = 48 := by
    intro p hp
    simp [parentTok_len, (hP p hp).1]
  have hcontent : encodeCommit T Ps tailBytes
      = (goStr "tree " ++ T ++ [10])
        ++ ((Ps.map fun p => parentTok ++ [32] ++ p ++ [10]).flatten ++ tailBytes) := by
    unfold encodeCommit
    simp
  have hlen46 : (goStr "tree " ++ T ++ [10]).length = 46 := by simp [htree5, hT]
  have hlen : 46 ≤ (encodeCommit T Ps tailBytes).length := by
    rw [hcontent, List.length_append, hlen46]
    omega
  have hdrop46 : (encodeCommit T Ps tailBytes).drop 46
      = (Ps.map fun p => parentTok ++ [32] ++ p ++ [10]).flatten ++ tailBytes := by
    rw [hcontent, ← hlen46, drop_len_append]
  have htreehash : ((encodeCommit T Ps tailBytes).drop 5).take 40 = T := by
    have hgrp : encodeCommit T Ps tailBytes
        = goStr "tree "
          ++ (T ++ (10 :: ((Ps.map fun p => parentTok ++ [32] ++ p ++ [10]).flatten
              ++ tailBytes))) := by
      rw [hcontent]; simp
    rw [hgrp, ← htree5, drop_len_append, ← hT, take_len_append]
  obtain ⟨l0, rest, hsplitTail⟩ :
      ∃ l0 rest, goSplit 10 tailBytes = l0 :: rest := by
    rcases h : goSplit 10 tailBytes with _ | ⟨a, b⟩
    · exact absurd h (goSplit_ne_nil 10 tailBytes)
    · exact ⟨a, b, rfl⟩
  rw [hsplitTail] at hstop1 hstop2
  simp only [List.headI] at hstop1 hstop2
  rw [parseCommit, if_neg (by omega)]
  simp only [htreehash, hdrop46, goSplit_parent_lines Ps hP tailBytes, hsplitTail,
      parseParents_encode Ps (fun p hp => (hP p hp).1) l0 rest hstop1 hstop2]

lemma reencodeTree_encode (l : List (Bytes × Bytes × Bytes))
    (hok : ∀ e ∈ l, (∀ b ∈ e.2.2, b < 256)) :
    reencodeTree (l.map fun e => ⟨e.1, e.2.1, hexEncode e.2.2⟩) = encodeTree l := by
  induction l with
  | nil => rfl
  | cons e t ih =>
    obtain ⟨m, n, h⟩ := e
    rw [List.map_cons]
    show reencodeEntry ⟨m, n, hexEncode h⟩ ++ reencodeTree _ = _
    rw [encodeTree_cons, ih (fun x hx => hok x (by simp [hx]))]
    unfold reencodeEntry
    simp only
    rw [hexDecode_hexEncode h (hok (m, n, h) (by simp))]
    simp

lemma repoToJson_single_commit (nm loc sz content : Bytes) (c : Commit)
    (hc : parseCommit content = some c) :
    repoToJson [⟨goStr "commit", sz, loc, nm, content⟩]
      = some ([⟨nm, goStr "commit", .commitJson c⟩],
              (c.parents.map fun p => ⟨nm, p⟩) ++ [⟨nm, c.tree⟩]) := by
  have hne : goStr "commit" ≠ goStr "tree" := by decide
  simp [repoToJson, objectToJson, unmarshalObjMap, hc, hne]

lemma repoToJson_single_tree (nm loc sz content : Bytes) (es : List TreeEntry)
    (he : parseTree content = some es) :
    repoToJson [⟨goStr "tree", sz, loc, nm, content⟩]
      = some ([⟨nm, goStr "tree", .treeJson es⟩], es.map fun e => ⟨nm, e.hash⟩) := by
  have hne : goStr "tree" ≠ goStr "commit" := by decide
  simp [repoToJson, objectToJson, unmarshalObjMap, he, hne]

/-- C1 counterexample: the source decoder does not produce its entries by
delimiter scanning.  On the tree body `0644 a\x00<20 bytes>` (valid under the
spec's §4.2 grammar: an ASCII mode string, a space, a name, a NUL, 20 raw
bytes) the scan-to-delimiter algorithm yields mode `0644` and name `a`, while
the source's fixed 6-byte mode window absorbs the separator and the name,
yielding mode `0644 a` and an empty name. -/
theorem c1_counterexample :
    parseTreeSpec c1Body = some [⟨goStr "0644", goStr "a", hexEncode c1Hash⟩] ∧
    parseTree c1Body = some [⟨goStr "0644 a", [], hexEncode c1Hash⟩] ∧
    parseTree c1Body ≠ parseTreeSpec c1Body := by decide

/-- C1 (amended): the source decoder reads a fixed 6-byte window for
mode-plus-separator instead of scanning to the space, and whitespace-trims
the fields it returns; for every body whose modes are 5 or 6 bytes long and
whitespace-free — which covers the real git modes, e.g. `40000` vs
`100644` — and whose names are NUL-free, it produces exactly the entries of
the spec's scan-to-delimiter algorithm with mode and name whitespace-trimmed,
so such bodies decode to the correct (mode, name, target) sequence up to
that trimming. -/
theorem c1_amended_fixed_window_agrees (l : List (Bytes × Bytes × Bytes))
    (hok : ∀ e ∈ l, (e.1.length = 5 ∨ e.1.length = 6) ∧
      (∀ b ∈ e.1, isGoSpace b = false) ∧ (0 : Nat) ∉ e.2.1 ∧ e.2.2.length = 20) :
    parseTree (encodeTree l)
      = (parseTreeSpec (encodeTree l)).map
          (List.map fun e => ⟨trimSpace e.mode, trimSpace e.name, e.hash⟩) ∧
    parseTree (encodeTree l)
      = some (l.map fun e => ⟨trimSpace e.1, trimSpace e.2.1, hexEncode e.2.2⟩) := by
  have hraw : ∀ e ∈ l, RawEntryOk e := fun e he =>
    ⟨(hok e he).1, (hok e he).2.2.1, (hok e he).2.2.2⟩
  have hspec : ∀ e ∈ l, (32 : Nat) ∉ e.1 ∧ (0 : Nat) ∉ e.2.1 ∧ e.2.2.length = 20 := by
    intro e he
    refine ⟨fun hm => ?_, (hok e he).2.2.1, (hok e he).2.2.2⟩
    have := (hok e he).2.1 32 hm
    simp [isGoSpace] at this
  refine ⟨?_, parseTree_encode l hraw⟩
  rw [parseTree_encode l hraw, parseTreeSpec_encode l hspec]
  simp only [Option.map_some', List.map_map]
  rfl

/-- C1 witness: a body mixing a 5-byte and a 6-byte mode, the second entry's
name carrying a leading space, decodes under the source decoder to exactly
the spec algorithm's entries with the fields trimmed. -/
theorem c1_amended_witness :
    parseTree (encodeTree [(goStr "40000", goStr "b", List.replicate 20 1),
        (goStr "100644", [32] ++ goStr "a.txt", List.replicate 20 2)])
      = (parseTreeSpec (encodeTree [(goStr "40000", goStr "b", List.replicate 20 1),
          (goStr "100644", [32] ++ goStr "a.txt", List.replicate 20 2)])).map
          (List.map fun e => ⟨trimSpace e.mode, trimSpace e.name, e.hash⟩) ∧
    parseTree (encodeTree [(goStr "40000", goStr "b", List.replicate 20 1),
        (goStr "100644", [32] ++ goStr "a.txt", List.replicate 20 2)])
      = some [⟨goStr "40000", goStr "b", hexEncode (List.replicate 20 1)⟩,
              ⟨goStr "100644", goStr "a.txt", hexEncode (List.replicate 20 2)⟩] := by
  have h := c1_amended_fixed_window_agrees
    [(goStr "40000", goStr "b", List.replicate 20 1),
     (goStr "100644", [32] ++ goStr "a.txt", List.replicate 20 2)] (by decide)
  refine ⟨h.1, ?_⟩
  rw [h.2]
  decide

/-- C2: contrary to the claim, a tree body truncated mid-entry is not
reported: the body `100644 a\x00` followed by only 10 of 20 hash bytes is
silently decoded to zero entries; a two-entry body whose second entry lacks
hash bytes silently yields only the first entry; and the 6-byte body
`100644` makes the decoder index one past the end of the buffer (a panic in
the source), no `TruncatedTree` error existing anywhere in the code. -/
theorem c2_truncation_silently_dropped :
    parseTree (goStr "100644 a" ++ [0] ++ List.replicate 10 171) = some [] ∧
    parseTree (goStr "100644 a" ++ [0] ++ List.replicate 20 171
        ++ goStr "40000 b" ++ [0] ++ List.replicate 10 9)
      = some [⟨goStr "100644", goStr "a", hexEncode (List.replicate 20 171)⟩] ∧
    parseTree (goStr "100644") = none := by decide

/-- C3: contrary to the claim, one undecodable object aborts the whole
graph-building pass: a repository with only the well-formed blob produces a
result, but adding one commit whose body stops after the tree line makes the
entire pass abort (the source panics inside `parseCommit` called from
`Repo.toJson`), yielding no result at all — no per-object error value is
recorded anywhere. -/
theorem c3_single_failure_aborts_pass :
    repoToJson [blobObj] = some ([⟨goStr "aab1", goStr "blob", .blobJson blobObj⟩], []) ∧
    repoToJson [blobObj, badCommitObj] = none := by decide

/-- C4: contrary to the claim, a body with no space, or no zero byte after
the first space, does not produce a `MalformedHeader` error value: the
source's `findFirstMatch` returns `-1` and `getType`/`getSize` slice with a
negative bound, a panic that kills the process (modelled as `none`), so the
loader indeed never slices content, but only because nothing is returned at
all. -/
theorem c4_missing_delimiter_panics :
    getType (goStr "blob1234") = none ∧
    getSize 4 (goStr "blob 1234") = none ∧
    loadHeader (goStr "blob1234") = none ∧
    loadHeader (goStr "blob 1234") = none := by decide

/-- C5: on a well-formed commit body — `tree <40-byte id>` first line,
N `parent <40-byte id>` lines in declaration order, then a first
non-parent line at least 6 bytes long not beginning with `parent` — the
decoder returns exactly the one tree identifier and exactly the N parent
identifiers in declaration order. -/
theorem c5_commit_tree_and_parents (T : Bytes) (Ps : List Bytes) (tailBytes : Bytes)
    (hT : T.length = 40)
    (hP : ∀ p ∈ Ps, p.length = 40 ∧ (10 : Nat) ∉ p)
    (hstop1 : 6 ≤ (goSplit 10 tailBytes).headI.length)
    (hstop2 : (goSplit 10 tailBytes).headI.take 6 ≠ parentTok) :
    parseCommit (encodeCommit T Ps tailBytes) = some ⟨T, Ps⟩ :=
  parseCommit_encode T Ps tailBytes hT hP hstop1 hstop2

/-- C5 witness: a merge commit with two parents decodes to its tree and both
parents in order. -/
theorem c5_commit_witness :
    parseCommit (encodeCommit (List.replicate 40 97)
        [List.replicate 40 98, List.replicate 40 99] (goStr "author A <a@b> 0 +0000"))
      = some ⟨List.replicate 40 97, [List.replicate 40 98, List.replicate 40 99]⟩ :=
  c5_commit_tree_and_parents (List.replicate 40 97)
    [List.replicate 40 98, List.replicate 40 99] (goStr "author A <a@b> 0 +0000")
    (by decide) (by decide) (by decide) (by decide)

/-- C6: contrary to the claim, the decoder does not check line length before
indexing: a commit body whose post-header region contains an empty line, and
one whose region contains the bare 6-byte line `parent`, both drive the
source's unchecked `line[:6]` / `line[7:47]` slices out of range (a panic,
modelled as `none`) instead of producing a `MalformedCommit` error value. -/
theorem c6_short_line_indexed_unconditionally :
    parseCommit (goStr "tree " ++ List.replicate 40 97 ++ [10]) = none ∧
    parseCommit (goStr "tree " ++ List.replicate 40 97 ++ [10]
        ++ goStr "parent" ++ [10] ++ goStr "author A") = none := by decide

/-- C7 counterexample: decode-then-re-encode does not reproduce every valid
tree body.  The single-entry body whose name has a leading space (mode
`40000`, name ` a`) decodes — the decoder trims the name to `a` — and
re-encoding the decoded entry yields a different, shorter body. -/
theorem c7_counterexample :
    parseTree c7Body = some [⟨goStr "40000", goStr "a", hexEncode c7Hash⟩] ∧
    reencodeTree [⟨goStr "40000", goStr "a", hexEncode c7Hash⟩] ≠ c7Body := by decide

/-- C7 (amended): for valid tree bodies whose modes are 5- or 6-byte
whitespace-free strings and whose names carry no leading or trailing ASCII
whitespace (and no NUL), decoding then re-encoding (mode + space + name +
NUL + the 20 raw hash bytes, concatenated in entry order) reproduces the
original body exactly; bodies whose names have surrounding whitespace are
not reproduced, because the decoder whitespace-trims the fields. -/
theorem c7_amended_roundtrip (l : List (Bytes × Bytes × Bytes))
    (hok : ∀ e ∈ l, (e.1.length = 5 ∨ e.1.length = 6) ∧
      (∀ b ∈ e.1, isGoSpace b = false) ∧ (0 : Nat) ∉ e.2.1 ∧
      trimSpace e.2.1 = e.2.1 ∧ e.2.2.length = 20 ∧ (∀ b ∈ e.2.2, b < 256)) :
    ∃ d, parseTree (encodeTree l) = some d ∧ reencodeTree d = encodeTree l := by
  have hraw : ∀ e ∈ l, RawEntryOk e := fun e he =>
    ⟨(hok e he).1, (hok e he).2.2.1, (hok e he).2.2.2.2.1⟩
  have hmap : (l.map fun e => (⟨trimSpace e.1, trimSpace e.2.1, hexEncode e.2.2⟩ : TreeEntry))
      = l.map fun e => ⟨e.1, e.2.1, hexEncode e.2.2⟩ := by
    apply List.map_congr_left
    intro e he
    rw [trim_no_space e.1 ((hok e he).2.1), (hok e he).2.2.2.1]
  refine ⟨l.map fun e => ⟨e.1, e.2.1, hexEncode e.2.2⟩, ?_, ?_⟩
  · rw [parseTree_encode l hraw, hmap]
  · exact reencodeTree_encode l fun e he => (hok e he).2.2.2.2.2

/-- C7 witness: a two-entry body with modes of both lengths decodes and
re-encodes to itself. -/
theorem c7_roundtrip_witness :
    ∃ d, parseTree (encodeTree [(goStr "40000", goStr "b", List.replicate 20 16),
        (goStr "100644", goStr "a.txt", List.replicate 20 255)]) = some d ∧
      reencodeTree d = encodeTree [(goStr "40000", goStr "b", List.replicate 20 16),
        (goStr "100644", goStr "a.txt", List.replicate 20 255)] :=
  c7_amended_roundtrip
    [(goStr "40000", goStr "b", List.replicate 20 16),
     (goStr "100644", goStr "a.txt", List.replicate 20 255)] (by decide)

/-- C8: a commit object contributes exactly its parent edges, in declaration
order, followed by its tree edge; a tree object contributes exactly one edge
per entry in on-disk order. -/
theorem c8_edge_order (T : Bytes) (Ps : List Bytes) (tailBytes : Bytes)
    (sz1 loc1 nm1 : Bytes) (l : List (Bytes × Bytes × Bytes)) (sz2 loc2 nm2 : Bytes)
    (hT : T.length = 40)
    (hP : ∀ p ∈ Ps, p.length = 40 ∧ (10 : Nat) ∉ p)
    (hstop1 : 6 ≤ (goSplit 10 tailBytes).headI.length)
    (hstop2 : (goSplit 10 tailBytes).headI.take 6 ≠ parentTok)
    (hok : ∀ e ∈ l, RawEntryOk e) :
    repoToJson [⟨goStr "commit", sz1, loc1, nm1, encodeCommit T Ps tailBytes⟩]
      = some ([⟨nm1, goStr "commit", .commitJson ⟨T, Ps⟩⟩],
              (Ps.map fun p => ⟨nm1, p⟩) ++ [⟨nm1, T⟩]) ∧
    repoToJson [⟨goStr "tree", sz2, loc2, nm2, encodeTree l⟩]
      = some ([⟨nm2, goStr "tree",
                .treeJson (l.map fun e => ⟨trimSpace e.1, trimSpace e.2.1, hexEncode e.2.2⟩)⟩],
              l.map fun e => ⟨nm2, hexEncode e.2.2⟩) := by
  constructor
  · exact repoToJson_single_commit nm1 loc1 sz1 (encodeCommit T Ps tailBytes) ⟨T, Ps⟩
      (parseCommit_encode T Ps tailBytes hT hP hstop1 hstop2)
  · rw [repoToJson_single_tree nm2 loc2 sz2 (encodeTree l)
        (l.map fun e => ⟨trimSpace e.1, trimSpace e.2.1, hexEncode e.2.2⟩)
        (parseTree_encode l hok)]
    simp

/-- C8 witness: concrete commit and tree objects produce their edge lists in
the fixed order (parents first, then tree; tree entries in on-disk order). -/
theorem c8_edge_order_witness :
    repoToJson [⟨goStr "commit", goStr "1", goStr "p", goStr "c1",
        encodeCommit (List.replicate 40 97) [List.replicate 40 98, List.replicate 40 99]
          (goStr "author A <a@b> 0 +0000")⟩]
      = some ([⟨goStr "c1", goStr "commit",
                .commitJson ⟨List.replicate 40 97,
                  [List.replicate 40 98, List.replicate 40 99]⟩⟩],
              [⟨goStr "c1", List.replicate 40 98⟩, ⟨goStr "c1", List.replicate 40 99⟩,
               ⟨goStr "c1", List.replicate 40 97⟩]) ∧
    repoToJson [⟨goStr "tree", goStr "2", goStr "q", goStr "t1",
        encodeTree [(goStr "100644", goStr "a.txt", List.replicate 20 17),
          (goStr "40000", goStr "b", List.replicate 20 18)]⟩]
      = some ([⟨goStr "t1", goStr "tree",
                .treeJson [⟨goStr "100644", goStr "a.txt", hexEncode (List.replicate 20 17)⟩,
                           ⟨goStr "40000", goStr "b", hexEncode (List.replicate 20 18)⟩]⟩],
              [⟨goStr "t1", hexEncode (List.replicate 20 17)⟩,
               ⟨goStr "t1", hexEncode (List.replicate 20 18)⟩]) := by
  have h := c8_edge_order (List.replicate 40 97)
    [List.replicate 40 98, List.replicate 40 99] (goStr "author A <a@b> 0 +0000")
    (goStr "1") (goStr "p") (goStr "c1")
    [(goStr "100644", goStr "a.txt", List.replicate 20 17),
     (goStr "40000", goStr "b", List.replicate 20 18)]
    (goStr "2") (goStr "q") (goStr "t1")
    (by decide) (by decide) (by decide) (by decide) (by decide)
  refine ⟨?_, ?_⟩
  · rw [h.1]
    decide
  · rw [h.2]
    decide

/-- C9: contrary to the claim, the builder does not emit a node for an
object of unrecognized kind: `Object.toJson` returns the empty byte slice
for it, `json.Unmarshal` of empty input fails, and the source aborts via
`log.Fatal`, so a store containing a `tag` object produces no result at all;
a blob does get its node and contributes zero edges. -/
theorem c9_unknown_kind_aborts :
    repoToJson [tagObj] = none ∧
    repoToJson [blobObj, blobObj] = some
      ([⟨goStr "aab1", goStr "blob", .blobJson blobObj⟩,
        ⟨goStr "aab1", goStr "blob", .blobJson blobObj⟩], []) := by decide

/-- C10: the decoder applies `strings.TrimSpace` to the name bytes it
returns (and to the mode window), so an entry whose raw name carries leading
or trailing ASCII whitespace decodes to a name differing from the on-disk
bytes. -/
theorem c10_name_not_verbatim (m n h : Bytes)
    (hm : m.length = 5 ∨ m.length = 6) (hmsp : ∀ b ∈ m, isGoSpace b = false)
    (hn : (0 : Nat) ∉ n) (hh : h.length = 20) (hw : trimSpace n ≠ n) :
    parseTree (encodeTree [(m, n, h)]) = some [⟨m, trimSpace n, hexEncode h⟩] ∧
    trimSpace n ≠ n := by
  refine ⟨?_, hw⟩
  have := parseTree_encode [(m, n, h)] (by
    intro e he
    simp only [List.mem_singleton] at he
    subst he
    exact ⟨hm, hn, hh⟩)
  rw [this]
  simp only [List.map_cons, List.map_nil]
  rw [trim_no_space m hmsp]

/-- C10 witness: the raw name ` a` (leading space) decodes to `a`. -/
theorem c10_name_not_verbatim_witness :
    parseTree (encodeTree [(goStr "40000", [32, 97], List.replicate 20 7)])
      = some [⟨goStr "40000", trimSpace [32, 97], hexEncode (List.replicate 20 7)⟩] ∧
    trimSpace [32, 97] ≠ [32, 97] :=
  c10_name_not_verbatim (goStr "40000") [32, 97] (List.replicate 20 7)
    (by decide) (by decide) (by decide) (by decide) (by decide)
